import Mathlib

/-!
Verification of the benthos core components against their specification.

The development shallowly embeds the Go sources:
  - `lib/processor/bounds_check.go` — the BoundsCheck processor;
  - `lib/output/nanomsg.go` — the Nanomsg output shell and the Combine
    processor (the staged file concatenates both);
  - the function-variable interpolator and `WrapWithPipelines`, whose
    implementations are not among the staged sources (only their tests
    are), are modelled from the specification text and marked as such.

Byte buffers are lists of naturals (characters for the text
interpolator), Go `int` is `Int`, Go maps from string to string are
association lists maintained by a replacing insert.  Fallible
constructors return `Except`.
-/

/-! ## Data model -/

/-- A message part: a byte buffer (`[]byte` in the source). -/
abbrev Bytes := List Nat

/-- Metadata: the `map[string]string` carried by a message, embedded as an
association list whose updates replace the binding of an existing key. -/
abbrev Metadata := List (String × String)

/-- A benthos message: an ordered sequence of byte parts plus metadata
(`types.Message` with `GetAll`, `Len`, `SetMetadata`, `IterMetadata`). -/
structure Message where
  parts : List Bytes
  metadata : Metadata
deriving DecidableEq

/-- A processor response (`types.Response`): `response.NewAck()`,
`response.NewError(e)` and `response.NewUnack()` (the spec's SkipAck). -/
inductive Response where
  | ack : Response
  | error (e : String) : Response
  | skipAck : Response
deriving DecidableEq

/-- `Message.Len()`: the number of parts. -/
def Message.Len (m : Message) : Nat := m.parts.length

/-- `SetMetadata` on a message's metadata map: replace the binding of the
key when present, append it otherwise. -/
def Message.SetMetadata : Metadata → String → String → Metadata
  | [], k, v => [(k, v)]
  | (k', v') :: rest, k, v =>
      if k' = k then (k, v) :: rest else (k', v') :: Message.SetMetadata rest k v

/-- `GetMetadata` on a message's metadata map: the bound value, or the
empty string when the key is absent. -/
def Message.GetMetadata (m : Metadata) (key : String) : String :=
  ((m.find? (fun kv => kv.1 == key)).map Prod.snd).getD ""

/-- The metadata copy performed at a Combine emission (nanomsg.go:391-395):
`message.New(c.parts)` starts with empty metadata and
`msg.IterMetadata(newMsg.SetMetadata)` inserts every entry of the input's
map. -/
def Message.CopyMetadata (src : Metadata) : Metadata :=
  src.foldl (fun acc kv => Message.SetMetadata acc kv.1 kv.2) []

/-! ## BoundsCheck (`lib/processor/bounds_check.go`) -/

/-- `BoundsCheckConfig`: the four bounds fields (Go `int`). -/
structure BoundsCheckConfig where
  MaxParts : Int
  MinParts : Int
  MaxPartSize : Int
  MinPartSize : Int
deriving DecidableEq

/-- `NewBoundsCheckConfig`: the default bounds. -/
def NewBoundsCheckConfig : BoundsCheckConfig where
  MaxParts := 100
  MinParts := 1
  MaxPartSize := 1 * 1024 * 1024 * 1024
  MinPartSize := 1

/-- `BoundsCheck.ProcessMessage` (bounds_check.go:104-145): reject when the
part count is below `MinParts` or above `MaxParts`, reject when some part's
size is above `MaxPartSize` or below `MinPartSize` (the source's early
returning loop over `msg.GetAll()` is embedded as `List.any`); every
rejection returns no messages and `response.NewAck()`; otherwise the
message is forwarded unchanged with no response. -/
def BoundsCheck.ProcessMessage (conf : BoundsCheckConfig) (msg : Message) :
    List Message × Option Response :=
  if (msg.Len : Int) < conf.MinParts then
    ([], some Response.ack)
  else if (msg.Len : Int) > conf.MaxParts then
    ([], some Response.ack)
  else if msg.parts.any (fun part =>
      decide ((part.length : Int) > conf.MaxPartSize) ||
      decide ((part.length : Int) < conf.MinPartSize)) then
    ([], some Response.ack)
  else
    ([msg], none)

/-- The four bounds of the BoundsCheck contract. -/
def BoundsOK (conf : BoundsCheckConfig) (msg : Message) : Prop :=
  conf.MinParts ≤ (msg.Len : Int) ∧ (msg.Len : Int) ≤ conf.MaxParts ∧
    ∀ p ∈ msg.parts, conf.MinPartSize ≤ (p.length : Int) ∧
      (p.length : Int) ≤ conf.MaxPartSize

instance (conf : BoundsCheckConfig) (msg : Message) : Decidable (BoundsOK conf msg) := by
  unfold BoundsOK; infer_instance

/-! ## Combine (the processor part of the staged `lib/output/nanomsg.go`,
lines 316-409) -/

/-- `CombineConfig`: the batching threshold (Go `int`). -/
structure CombineConfig where
  Parts : Int
deriving DecidableEq

/-- `NewCombineConfig`: default threshold 2. -/
def NewCombineConfig : CombineConfig where
  Parts := 2

/-- The `Combine` processor state: the threshold `n` and the buffered
parts. -/
structure Combine where
  n : Int
  parts : List Bytes
deriving DecidableEq

/-- `NewCombine` (nanomsg.go:353-367): builds the processor from
`conf.Combine.Parts` with an empty buffer.  The source performs no
validation of the field and always returns a nil error. -/
def NewCombine (conf : CombineConfig) : Except String Combine :=
  Except.ok { n := conf.Parts, parts := [] }

/-- `Combine.ProcessMessage` (nanomsg.go:373-409): a message with more
parts than `n` passes through unchanged; otherwise its parts are appended
to the buffer, and when the buffer reaches `n` parts it is emitted as one
message carrying the input's metadata and cleared, else nothing is emitted
and `response.NewUnack()` (SkipAck) is returned. -/
def Combine.ProcessMessage (c : Combine) (msg : Message) :
    Combine × List Message × Option Response :=
  if (msg.Len : Int) > c.n then
    (c, [msg], none)
  else if (((c.parts ++ msg.parts).length : Nat) : Int) ≥ c.n then
    ({ c with parts := [] },
     [{ parts := c.parts ++ msg.parts,
        metadata := Message.CopyMetadata msg.metadata }],
     none)
  else
    ({ c with parts := c.parts ++ msg.parts }, [], some Response.skipAck)

/-- Feeding a sequence of messages through one `Combine` instance,
collecting every emitted message in order. -/
def Combine.ProcessAll (c : Combine) : List Message → Combine × List Message
  | [] => (c, [])
  | m :: ms =>
      let r := c.ProcessMessage m
      let rest := Combine.ProcessAll r.1 ms
      (rest.1, r.2.1 ++ rest.2)

/-! ## Nanomsg output shell (`lib/output/nanomsg.go`, lines 76-147 and
226-233) -/

/-- The errors of `Nanomsg.Consume`: `types.ErrAlreadyStarted`. -/
inductive OutputErr where
  | alreadyStarted : OutputErr
deriving DecidableEq

/-- The `Nanomsg` output state relevant to `Consume`: the assigned upstream
transaction channel, `nil` until `Consume` succeeds.  The channel itself is
abstract (`σ`). -/
structure Nanomsg (σ : Type) where
  transactions : Option σ
deriving DecidableEq

/-- `NewNanomsg` leaves the `transactions` field at its zero value (nil);
the socket handling is external to this model. -/
def Nanomsg.New (σ : Type) : Nanomsg σ :=
  { transactions := none }

/-- `Nanomsg.Consume` (nanomsg.go:226-233): return `ErrAlreadyStarted` and
change nothing when an upstream is already assigned; otherwise assign the
channel and return nil. -/
def Nanomsg.Consume (s : Nanomsg σ) (ts : σ) : Nanomsg σ × Option OutputErr :=
  if s.transactions.isSome then
    (s, some OutputErr.alreadyStarted)
  else
    ({ s with transactions := some ts }, none)

/-! ## WrapWithPipelines -/

/-- An input spliced through pipelines.  The base input value is kept
intact so that returning it unchanged is observable. -/
inductive WrappedInput (α π : Type) where
  | base (i : α) : WrappedInput α π
  | wrap (inner : WrappedInput α π) (p : π) : WrappedInput α π
deriving DecidableEq

/-- Modelled from the spec: `WrapWithPipelines` of lib/input is not among
the staged sources (only its tests are).  Per the spec it constructs each
pipeline in order, returns the first constructor error if any, otherwise
splices input through pipeline 1 .. pipeline n; with zero pipelines it
returns the input unchanged.  Constructor outcomes are embedded as
`Except` values. -/
def WrapWithPipelines (i : WrappedInput α π) :
    List (Except String π) → Except String (WrappedInput α π)
  | [] => Except.ok i
  | c :: cs =>
      match c with
      | Except.error e => Except.error e
      | Except.ok p => WrapWithPipelines (WrappedInput.wrap i p) cs

/-! ## Function-variable detector

Modelled from the spec: `ContainsFunctionVariables` of the text utility
package is not among the staged sources; only its test
`TestFunctionVarDetection` is.  The spec's grammar: a well-formed
reference is of the form NAME between a dollar-brace-bang opener and a
closing brace, or NAME then a colon and a non-empty ARG before the closing
brace, with NAME non-empty over lowercase letters and underscore and ARG
free of closing braces; anything else is literal.  Byte strings are
embedded as `List Char`.  Brace characters are written via `Char.ofNat`
throughout. -/

/-- The opening brace character. -/
def lbrace : Char := Char.ofNat 123

/-- The closing brace character. -/
def rbrace : Char := Char.ofNat 125

/-- NAME characters: lowercase ascii letters and underscore. -/
def isNameChar (c : Char) : Bool := c.isLower || c == '_'

/-- After the NAME: either a closing brace, or a colon, a non-empty run of
non-closing-brace characters and a closing brace. -/
def MatchAfterName : List Char → Bool
  | [] => false
  | d :: rest =>
      if d = rbrace then true
      else if d = ':' then
        decide (rest.takeWhile (fun c => c != rbrace) ≠ []) &&
        decide (rest.dropWhile (fun c => c != rbrace) ≠ [])
      else false

/-- Whether a well-formed function reference starts at the head of the
string: the three opener characters, a non-empty NAME, then
`MatchAfterName`. -/
def MatchRefAt : List Char → Bool
  | c0 :: c1 :: c2 :: rest =>
      c0 == '$' && c1 == lbrace && c2 == '!' &&
      decide (rest.takeWhile isNameChar ≠ []) &&
      MatchAfterName (rest.dropWhile isNameChar)
  | _ => false

/-- Modelled from the spec: the detector predicate scans every position of
the byte string for a well-formed function reference. -/
def ContainsFunctionVariables : List Char → Bool
  | [] => false
  | c :: cs => MatchRefAt (c :: cs) || ContainsFunctionVariables cs

/-- The spec's grammar of a well-formed function reference, stated
declaratively: `r` decomposes into the opener, a NAME over the lowercase
letters and underscore, and either a closing brace or a colon, a non-empty
ARG of non-closing-brace characters and a closing brace. -/
def WellFormedRef (r : List Char) : Prop :=
  ∃ name : List Char, name ≠ [] ∧ (∀ c ∈ name, isNameChar c = true) ∧
    (r = '$' :: lbrace :: '!' :: (name ++ [rbrace]) ∨
     ∃ arg : List Char, arg ≠ [] ∧ (∀ c ∈ arg, c ≠ rbrace) ∧
       r = '$' :: lbrace :: '!' :: (name ++ ':' :: (arg ++ [rbrace])))

/-- The byte string contains a well-formed function reference somewhere. -/
def HasFunctionRef (s : List Char) : Prop :=
  ∃ pre r post, s = pre ++ r ++ post ∧ WellFormedRef r

/-! ## The metadata interpolation function

Modelled from the spec: the `metadata` function of the interpolator is not
among the staged sources; only its test `TestMetadataFunction` is.  With a
key argument it substitutes that key's metadata value (empty when absent);
with no argument it substitutes a deterministic JSON object of the whole
map with keys sorted lexicographically. -/

/-- The double-quote character. -/
def quoteChar : Char := Char.ofNat 34

/-- The backslash character. -/
def backslashChar : Char := Char.ofNat 92

/-- JSON string escaping of one character (quote and backslash). -/
def EscapeChar (c : Char) : List Char :=
  if c = quoteChar then [backslashChar, c]
  else if c = backslashChar then [backslashChar, c]
  else [c]

/-- A JSON string literal. -/
def JsonQuote (s : String) : String :=
  ⟨quoteChar :: (s.data.map EscapeChar).flatten ++ [quoteChar]⟩

/-- Lexicographic comparison of character lists. -/
def StrLe : List Char → List Char → Bool
  | [], _ => true
  | _ :: _, [] => false
  | a :: as, b :: bs => if a < b then true else if b < a then false else StrLe as bs

/-- Insertion into a key-sorted association list. -/
def KeyInsert (p : String × String) : Metadata → Metadata
  | [] => [p]
  | q :: qs => if StrLe p.1.data q.1.data then p :: q :: qs else q :: KeyInsert p qs

/-- Sorting a metadata map by key, lexicographically. -/
def KeySort : Metadata → Metadata
  | [] => []
  | p :: ps => KeyInsert p (KeySort ps)

/-- The deterministic JSON serialization of a metadata map: entries sorted
by key, each rendered as a quoted key, a colon and a quoted value, joined
with commas between braces. -/
def MetaJSON (m : Metadata) : String :=
  "\x7b" ++
    String.intercalate ","
      ((KeySort m).map (fun kv => JsonQuote kv.1 ++ ":" ++ JsonQuote kv.2)) ++
  "\x7d"

/-- Modelled from the spec: the expansion substituted for a `metadata`
function reference, with or without a key argument. -/
def MetadataFunction (m : Metadata) (arg : Option String) : String :=
  match arg with
  | some key => Message.GetMetadata m key
  | none => MetaJSON m

/-! ## Helper lemmas -/

/-- `takeWhile` passes over a prefix it wholly satisfies. -/
theorem takeWhile_append_of_all {α : Type} (p : α → Bool) (l1 l2 : List α)
    (h : ∀ c ∈ l1, p c = true) :
    (l1 ++ l2).takeWhile p = l1 ++ l2.takeWhile p := by
  induction l1 with
  | nil => simp
  | cons x xs ih =>
      simp only [List.cons_append, List.takeWhile_cons,
        h x (List.mem_cons_self x xs), if_pos,
        ih (fun c hc => h c (List.mem_cons_of_mem x hc))]

/-- `dropWhile` drops a prefix it wholly satisfies. -/
theorem dropWhile_append_of_all {α : Type} (p : α → Bool) (l1 l2 : List α)
    (h : ∀ c ∈ l1, p c = true) :
    (l1 ++ l2).dropWhile p = l2.dropWhile p := by
  induction l1 with
  | nil => simp
  | cons x xs ih =>
      simp only [List.cons_append, List.dropWhile_cons,
        h x (List.mem_cons_self x xs), if_pos,
        ih (fun c hc => h c (List.mem_cons_of_mem x hc))]

/-- The head surviving a `dropWhile` fails the predicate. -/
theorem dropWhile_head_false {α : Type} (p : α → Bool) :
    ∀ (l : List α) (y : α) (ys : List α), l.dropWhile p = y :: ys → p y = false := by
  intro l
  induction l with
  | nil => intro y ys h; simp [List.dropWhile] at h
  | cons x xs ih =>
      intro y ys h
      rw [List.dropWhile_cons] at h
      by_cases hx : p x = true
      · rw [if_pos hx] at h
        exact ih y ys h
      · rw [if_neg hx] at h
        cases h
        simpa using hx

/-- The closing brace is not a NAME character. -/
theorem isNameChar_rbrace : isNameChar rbrace = false := by decide

/-- The colon is not a NAME character. -/
theorem isNameChar_colon : isNameChar ':' = false := by decide

/-- `MatchRefAt` succeeds exactly when a well-formed reference is a prefix
of the string. -/
theorem matchRefAt_iff (s : List Char) :
    MatchRefAt s = true ↔ ∃ r rest, s = r ++ rest ∧ WellFormedRef r := by
  constructor
  · intro h
    match s with
    | [] => simp [MatchRefAt] at h
    | [c0] => simp [MatchRefAt] at h
    | [c0, c1] => simp [MatchRefAt] at h
    | c0 :: c1 :: c2 :: rest =>
      simp only [MatchRefAt, Bool.and_eq_true, beq_iff_eq, decide_eq_true_eq] at h
      obtain ⟨⟨⟨⟨h0, h1⟩, h2⟩, hname⟩, hafter⟩ := h
      subst h0; subst h1; subst h2
      have hresteq : rest.takeWhile isNameChar ++ rest.dropWhile isNameChar = rest :=
        List.takeWhile_append_dropWhile isNameChar rest
      have hnamechar : ∀ c ∈ rest.takeWhile isNameChar, isNameChar c = true :=
        fun c hc => List.mem_takeWhile_imp hc
      cases hrest2 : rest.dropWhile isNameChar with
      | nil => rw [hrest2] at hafter; simp [MatchAfterName] at hafter
      | cons d rest3 =>
        rw [hrest2] at hafter
        rw [hrest2] at hresteq
        by_cases hd : d = rbrace
        · subst hd
          refine ⟨'$' :: lbrace :: '!' :: (rest.takeWhile isNameChar ++ [rbrace]),
            rest3, ?_, rest.takeWhile isNameChar, hname, hnamechar, Or.inl rfl⟩
          simp only [List.cons_append, List.append_assoc, List.singleton_append,
            List.cons.injEq, true_and]
          exact hresteq.symm
        · simp only [MatchAfterName] at hafter
          rw [if_neg hd] at hafter
          by_cases hd2 : d = ':'
          · rw [if_pos hd2] at hafter
            subst hd2
            simp only [Bool.and_eq_true, decide_eq_true_eq] at hafter
            obtain ⟨harg, hdrop⟩ := hafter
            have hargeq : rest3.takeWhile (fun c => c != rbrace) ++
                rest3.dropWhile (fun c => c != rbrace) = rest3 :=
              List.takeWhile_append_dropWhile _ rest3
            cases hrest4 : rest3.dropWhile (fun c => c != rbrace) with
            | nil => exact absurd hrest4 hdrop
            | cons e rest5 =>
              rw [hrest4] at hargeq
              have he : e = rbrace := by
                have := dropWhile_head_false (fun c => c != rbrace) rest3 e rest5 hrest4
                simpa using this
              subst he
              have hargmem : ∀ c ∈ rest3.takeWhile (fun c => c != rbrace), c ≠ rbrace :=
                fun c hc => by simpa using List.mem_takeWhile_imp hc
              revert hresteq hargeq hname hnamechar harg hargmem
              generalize rest.takeWhile isNameChar = N
              generalize rest3.takeWhile (fun c => c != rbrace) = A
              intro hname hnamechar hresteq harg hargeq hargmem
              refine ⟨'$' :: lbrace :: '!' :: (N ++ ':' :: (A ++ [rbrace])),
                rest5, ?_, N, hname, hnamechar, Or.inr ⟨A, harg, hargmem, rfl⟩⟩
              rw [← hresteq, ← hargeq]
              simp
          · rw [if_neg hd2] at hafter
            simp at hafter
  · rintro ⟨r, rest, hs, name, hname, hnamechar, hcase⟩
    rcases hcase with heq | ⟨arg, harg, hargchar, heq⟩
    · subst heq
      subst hs
      have : ('$' :: lbrace :: '!' :: (name ++ [rbrace])) ++ rest =
          '$' :: lbrace :: '!' :: (name ++ rbrace :: rest) := by simp
      rw [this]
      simp only [MatchRefAt, Bool.and_eq_true, beq_iff_eq, decide_eq_true_eq]
      have htake : (name ++ rbrace :: rest).takeWhile isNameChar = name := by
        rw [takeWhile_append_of_all isNameChar name _ hnamechar,
          List.takeWhile_cons, isNameChar_rbrace]
        simp
      have hdrop : (name ++ rbrace :: rest).dropWhile isNameChar = rbrace :: rest := by
        rw [dropWhile_append_of_all isNameChar name _ hnamechar, List.dropWhile_cons,
          isNameChar_rbrace]
        simp
      refine ⟨⟨⟨⟨trivial, trivial⟩, trivial⟩, by rw [htake]; exact hname⟩, ?_⟩
      rw [hdrop]
      simp [MatchAfterName]
    · subst heq
      subst hs
      have : ('$' :: lbrace :: '!' :: (name ++ ':' :: (arg ++ [rbrace]))) ++ rest =
          '$' :: lbrace :: '!' :: (name ++ ':' :: (arg ++ rbrace :: rest)) := by simp
      rw [this]
      simp only [MatchRefAt, Bool.and_eq_true, beq_iff_eq, decide_eq_true_eq]
      have htake : (name ++ ':' :: (arg ++ rbrace :: rest)).takeWhile isNameChar = name := by
        rw [takeWhile_append_of_all isNameChar name _ hnamechar,
          List.takeWhile_cons, isNameChar_colon]
        simp
      have hdrop : (name ++ ':' :: (arg ++ rbrace :: rest)).dropWhile isNameChar =
          ':' :: (arg ++ rbrace :: rest) := by
        rw [dropWhile_append_of_all isNameChar name _ hnamechar, List.dropWhile_cons,
          isNameChar_colon]
        simp
      refine ⟨⟨⟨⟨trivial, trivial⟩, trivial⟩, by rw [htake]; exact hname⟩, ?_⟩
      rw [hdrop]
      have hargall : ∀ c ∈ arg, (fun c => c != rbrace) c = true :=
        fun c hc => by simpa using hargchar c hc
      have htake2 : (arg ++ rbrace :: rest).takeWhile (fun c => c != rbrace) = arg := by
        rw [takeWhile_append_of_all _ arg _ hargall, List.takeWhile_cons]
        simp
      have hdrop2 : (arg ++ rbrace :: rest).dropWhile (fun c => c != rbrace) =
          rbrace :: rest := by
        rw [dropWhile_append_of_all _ arg _ hargall, List.dropWhile_cons]
        simp
      simp only [MatchAfterName, if_true]
      rw [htake2, hdrop2]
      simp [harg]

/-- A well-formed reference is never the empty string. -/
theorem wellFormedRef_ne_nil {r : List Char} (h : WellFormedRef r) : r ≠ [] := by
  obtain ⟨name, -, -, hcase⟩ := h
  rcases hcase with heq | ⟨arg, -, -, heq⟩ <;> simp [heq]

/-- Inserting an absent key appends the binding. -/
theorem setMetadata_append_of_not_mem (acc : Metadata) (k v : String)
    (h : k ∉ acc.map Prod.fst) :
    Message.SetMetadata acc k v = acc ++ [(k, v)] := by
  induction acc with
  | nil => rfl
  | cons kv rest ih =>
      obtain ⟨k', v'⟩ := kv
      simp only [List.map_cons, List.mem_cons, not_or] at h
      simp only [Message.SetMetadata, if_neg (Ne.symm h.1), List.cons_append,
        ih h.2]

/-- Replaying a metadata map with pairwise distinct keys over an accumulator
disjoint from it appends the map unchanged. -/
theorem copyMetadata_foldl (src : Metadata) :
    ∀ acc : Metadata, (src.map Prod.fst).Nodup →
      (∀ k ∈ src.map Prod.fst, k ∉ acc.map Prod.fst) →
      src.foldl (fun a kv => Message.SetMetadata a kv.1 kv.2) acc = acc ++ src := by
  induction src with
  | nil => intro acc _ _; simp
  | cons kv rest ih =>
      intro acc hnd hdisj
      obtain ⟨k, v⟩ := kv
      simp only [List.map_cons, List.nodup_cons] at hnd
      have hk : k ∉ acc.map Prod.fst := hdisj k (by simp)
      have step : Message.SetMetadata acc k v = acc ++ [(k, v)] :=
        setMetadata_append_of_not_mem acc k v hk
      simp only [List.foldl_cons, step]
      rw [ih (acc ++ [(k, v)]) hnd.2]
      · simp
      · intro k' hk'
        simp only [List.map_append, List.mem_append, List.map_cons,
          List.map_nil, List.mem_singleton, not_or]
        exact ⟨hdisj k' (by simp [hk']), fun he => hnd.1 (he ▸ hk')⟩

/-- On a map with pairwise distinct keys — every genuine Go map — the
emission-time copy reproduces the metadata exactly. -/
theorem copyMetadata_eq (src : Metadata) (h : (src.map Prod.fst).Nodup) :
    Message.CopyMetadata src = src := by
  unfold Message.CopyMetadata
  simpa using copyMetadata_foldl src [] h (by simp)

/-- The batch-accounting invariant of a Combine run, generalized over a
reachable state (threshold at least one, buffer strictly below it): when
every input's part count is at most the threshold, the parts emitted
followed by the parts left in the buffer are exactly the input parts in
order, the final state keeps the invariant, and every emitted batch has at
least `n` and fewer than `2 * n` parts. -/
theorem combine_processAll_spec (msgs : List Message) :
    ∀ c : Combine, 1 ≤ c.n → (c.parts.length : Int) < c.n →
      (∀ m ∈ msgs, (m.Len : Int) ≤ c.n) →
      (Combine.ProcessAll c msgs).1.n = c.n ∧
      ((Combine.ProcessAll c msgs).1.parts.length : Int) < c.n ∧
      ((Combine.ProcessAll c msgs).2.flatMap Message.parts ++
          (Combine.ProcessAll c msgs).1.parts
        = c.parts ++ msgs.flatMap Message.parts) ∧
      ∀ o ∈ (Combine.ProcessAll c msgs).2,
        c.n ≤ (o.Len : Int) ∧ (o.Len : Int) < 2 * c.n := by
  induction msgs with
  | nil =>
      intro c h1 hinv _
      exact ⟨rfl, hinv, by simp [Combine.ProcessAll], by simp [Combine.ProcessAll]⟩
  | cons m ms ih =>
      intro c h1 hinv hall
      have hm : (m.Len : Int) ≤ c.n := hall m (List.mem_cons_self m ms)
      have hms : ∀ m' ∈ ms, (m'.Len : Int) ≤ c.n :=
        fun m' hm' => hall m' (List.mem_cons_of_mem m hm')
      show (Combine.ProcessAll c (m :: ms)).1.n = c.n ∧ _
      unfold Combine.ProcessAll Combine.ProcessMessage
      rw [if_neg (by omega)]
      by_cases hfull : (((c.parts ++ m.parts).length : Nat) : Int) ≥ c.n
      · rw [if_pos hfull]
        have hlen : (((c.parts ++ m.parts).length : Nat) : Int) < 2 * c.n := by
          have := m.Len
          simp only [List.length_append]
          unfold Message.Len at hm
          push_cast
          omega
        obtain ⟨ihn, ihinv, ihacc, ihout⟩ :=
          ih { c with parts := [] } (by simpa using h1) (by simpa using h1)
            (by simpa using hms)
        refine ⟨ihn, ihinv, ?_, ?_⟩
        · simp only [List.flatMap_cons, List.flatMap_append] at ihacc ⊢
          simp only [List.append_assoc] at ihacc ⊢
          rw [ihacc]
          simp
        · intro o ho
          simp only [List.mem_append, List.mem_singleton] at ho
          rcases ho with ho | ho
          · subst ho
            exact ⟨by simpa [Message.Len] using hfull, by simpa [Message.Len] using hlen⟩
          · obtain ⟨h1o, h2o⟩ := ihout o ho
            exact ⟨by simpa [ihn] using h1o, by simpa [ihn] using h2o⟩
      · rw [if_neg hfull]
        have hlt : (((c.parts ++ m.parts).length : Nat) : Int) < c.n := by omega
        obtain ⟨ihn, ihinv, ihacc, ihout⟩ :=
          ih { c with parts := c.parts ++ m.parts } (by simpa using h1)
            (by simpa using hlt) (by simpa using hms)
        refine ⟨ihn, ihinv, ?_, ?_⟩
        · simp only [List.flatMap_cons, List.nil_append] at ihacc ⊢
          rw [ihacc]
          simp
        · intro o ho
          simp only [List.nil_append] at ho
          obtain ⟨h1o, h2o⟩ := ihout o ho
          exact ⟨by simpa [ihn] using h1o, by simpa [ihn] using h2o⟩

/-! ## Claim C1 -/

/-- Claim C1 (amended): for a fresh Combine with threshold `n ≥ 1` and any
input sequence whose part counts are all at most `n`, the emitted parts
followed by the terminal partial buffer are exactly the input parts (hence
the multisets agree), and every emitted message has at least `n` — though
possibly up to `2 * n - 1`, not exactly `n` — parts. -/
theorem combine_batch_accounting (n : Int) (msgs : List Message)
    (h1 : 1 ≤ n) (hall : ∀ m ∈ msgs, (m.Len : Int) ≤ n) :
    ((Combine.ProcessAll ⟨n, []⟩ msgs).2.flatMap Message.parts ++
        (Combine.ProcessAll ⟨n, []⟩ msgs).1.parts
      = msgs.flatMap Message.parts) ∧
    ∀ o ∈ (Combine.ProcessAll ⟨n, []⟩ msgs).2,
      n ≤ (o.Len : Int) ∧ (o.Len : Int) < 2 * n := by
  obtain ⟨-, -, hacc, hout⟩ :=
    combine_processAll_spec msgs ⟨n, []⟩ h1 (by simpa using h1) hall
  exact ⟨by simpa using hacc, hout⟩

/-- Claim C1 (amended), witnessed: threshold 2, inputs of 1 and 2 parts. -/
theorem combine_batch_accounting_witness :
    ((Combine.ProcessAll ⟨2, []⟩
        [{ parts := [[0]], metadata := [] },
         { parts := [[1], [2]], metadata := [] }]).2.flatMap Message.parts ++
      (Combine.ProcessAll ⟨2, []⟩
        [{ parts := [[0]], metadata := [] },
         { parts := [[1], [2]], metadata := [] }]).1.parts
      = [{ parts := ([[0]] : List Bytes), metadata := ([] : Metadata) },
         { parts := [[1], [2]], metadata := [] }].flatMap Message.parts) ∧
    ∀ o ∈ (Combine.ProcessAll ⟨2, []⟩
        [{ parts := [[0]], metadata := [] },
         { parts := [[1], [2]], metadata := [] }]).2,
      (2 : Int) ≤ (o.Len : Int) ∧ (o.Len : Int) < 2 * 2 :=
  combine_batch_accounting 2
    [{ parts := [[0]], metadata := [] }, { parts := [[1], [2]], metadata := [] }]
    (by decide) (by decide)

/-- Claim C1 as frozen is false: with threshold 2 and inputs of 1 then 2
parts (both at most 2), the run ends with an empty buffer — so no terminal
partial batch remains — yet the single emitted message has 3 parts, not 2. -/
theorem combine_exactly_p_counterexample :
    (∀ m ∈ [({ parts := [[0]], metadata := [] } : Message),
            { parts := [[1], [2]], metadata := [] }], (m.Len : Int) ≤ 2) ∧
    (Combine.ProcessAll ⟨2, []⟩
        [{ parts := [[0]], metadata := [] },
         { parts := [[1], [2]], metadata := [] }]).1.parts = [] ∧
    (Combine.ProcessAll ⟨2, []⟩
        [{ parts := [[0]], metadata := [] },
         { parts := [[1], [2]], metadata := [] }]).2.map Message.Len = [3] := by
  refine ⟨by decide, by decide, by decide⟩

/-! ## Claim C2 -/

/-- Claim C2: BoundsCheck emits `[msg]` unchanged iff all four bounds hold;
in every other case it emits no messages and returns Ack; it never returns
an Error response. -/
theorem boundsCheck_contract (conf : BoundsCheckConfig) (msg : Message) :
    (BoundsCheck.ProcessMessage conf msg = ([msg], none) ↔ BoundsOK conf msg) ∧
    (¬ BoundsOK conf msg →
      BoundsCheck.ProcessMessage conf msg = ([], some Response.ack)) ∧
    (∀ e, (BoundsCheck.ProcessMessage conf msg).2 ≠ some (Response.error e)) := by
  unfold BoundsCheck.ProcessMessage BoundsOK
  split_ifs with h1 h2 h3
  · refine ⟨⟨fun h => by simp at h, fun h => absurd h.1 (by omega)⟩, fun _ => rfl, ?_⟩
    intro e he
    simp at he
  · refine ⟨⟨fun h => by simp at h, fun h => absurd h.2.1 (by omega)⟩, fun _ => rfl, ?_⟩
    intro e he
    simp at he
  · refine ⟨⟨fun h => by simp at h, ?_⟩, fun _ => rfl, ?_⟩
    · rintro ⟨-, -, hall⟩
      rcases List.any_eq_true.mp h3 with ⟨p, hp, hviol⟩
      rcases (hall p hp) with ⟨hlo, hhi⟩
      simp only [Bool.or_eq_true, decide_eq_true_eq] at hviol
      omega
    · intro e he
      simp at he
  · refine ⟨⟨fun _ => ?_, fun _ => rfl⟩, fun hn => absurd ?_ hn, ?_⟩
    · refine ⟨by omega, by omega, fun p hp => ?_⟩
      have : ¬ ((decide ((p.length : Int) > conf.MaxPartSize) ||
          decide ((p.length : Int) < conf.MinPartSize)) = true) := by
        intro hc
        exact h3 (List.any_eq_true.mpr ⟨p, hp, hc⟩)
      simp only [Bool.or_eq_true, decide_eq_true_eq] at this
      push_neg at this
      omega
    · refine ⟨by omega, by omega, fun p hp => ?_⟩
      have : ¬ ((decide ((p.length : Int) > conf.MaxPartSize) ||
          decide ((p.length : Int) < conf.MinPartSize)) = true) := by
        intro hc
        exact h3 (List.any_eq_true.mpr ⟨p, hp, hc⟩)
      simp only [Bool.or_eq_true, decide_eq_true_eq] at this
      push_neg at this
      omega
    · intro e he
      simp at he

/-- Claim C2, witnessed on a concrete in-bounds message. -/
theorem boundsCheck_contract_witness :
    BoundsCheck.ProcessMessage NewBoundsCheckConfig
        { parts := [[0, 1]], metadata := [] } =
      ([{ parts := [[0, 1]], metadata := [] }], none) :=
  (boundsCheck_contract NewBoundsCheckConfig
    { parts := [[0, 1]], metadata := [] }).1.mpr (by decide)

/-! ## Claim C3 -/

/-- Claim C3: the per-call contract of `Combine.ProcessMessage`.  An
oversize message passes through unchanged with no response; otherwise its
parts are appended to the buffer, and either the buffer reached the
threshold and is emitted whole (with the input's metadata) and cleared, or
nothing is emitted and SkipAck is returned. -/
theorem combine_process_cases (c : Combine) (msg : Message) :
    ((msg.Len : Int) > c.n → c.ProcessMessage msg = (c, [msg], none)) ∧
    ((msg.Len : Int) ≤ c.n →
      (((c.parts.length + msg.parts.length : Nat) : Int) ≥ c.n →
        c.ProcessMessage msg =
          ({ c with parts := [] },
           [{ parts := c.parts ++ msg.parts,
              metadata := Message.CopyMetadata msg.metadata }], none)) ∧
      (((c.parts.length + msg.parts.length : Nat) : Int) < c.n →
        c.ProcessMessage msg =
          ({ c with parts := c.parts ++ msg.parts }, [],
           some Response.skipAck))) := by
  unfold Combine.ProcessMessage
  refine ⟨fun h => ?_, fun hle => ⟨fun hge => ?_, fun hlt => ?_⟩⟩
  · rw [if_pos h]
  · rw [if_neg (by omega), if_pos (by simpa [List.length_append] using hge)]
  · rw [if_neg (by omega), if_neg (by simpa [List.length_append] using hlt)]

/-- Claim C3, witnessed on the pass-through case and on an emitting call. -/
theorem combine_process_cases_witness :
    Combine.ProcessMessage ⟨2, [[7]]⟩ { parts := [[1], [2], [3]], metadata := [] } =
      (⟨2, [[7]]⟩, [{ parts := [[1], [2], [3]], metadata := [] }], none) ∧
    Combine.ProcessMessage ⟨2, [[7]]⟩ { parts := [[8]], metadata := [] } =
      (⟨2, []⟩, [{ parts := [[7], [8]], metadata := [] }], none) :=
  ⟨(combine_process_cases ⟨2, [[7]]⟩ _).1 (by decide),
   ((combine_process_cases ⟨2, [[7]]⟩ _).2 (by decide)).1 (by decide)⟩

/-! ## Claim C4 -/

/-- Claim C4: whenever Combine emits a batch (reachable state: buffer below
threshold; input within threshold; buffer reaches threshold after the
append), the emitted message's metadata equals the metadata of the current
input — which is the last input that contributed parts to the batch, since
it contributed at least one part. -/
theorem combine_emission_metadata (c : Combine) (msg : Message)
    (hinv : (c.parts.length : Int) < c.n)
    (hnodup : (msg.metadata.map Prod.fst).Nodup)
    (hle : (msg.Len : Int) ≤ c.n)
    (hemit : (((c.parts.length + msg.parts.length : Nat) : Int)) ≥ c.n) :
    ∃ out, (c.ProcessMessage msg).2.1 = [out] ∧
      out.metadata = msg.metadata ∧ msg.parts ≠ [] := by
  unfold Combine.ProcessMessage
  rw [if_neg (by omega), if_pos (by simpa [List.length_append] using hemit)]
  refine ⟨_, rfl, copyMetadata_eq msg.metadata hnodup, ?_⟩
  intro hempty
  rw [hempty] at hemit
  simp at hemit
  omega

/-- Claim C4, witnessed on a concrete emission. -/
theorem combine_emission_metadata_witness :
    ∃ out,
      (Combine.ProcessMessage ⟨2, [[5]]⟩
          { parts := [[6]], metadata := [("k", "v")] }).2.1 = [out] ∧
      out.metadata = [("k", "v")] ∧ ([[6]] : List Bytes) ≠ [] :=
  combine_emission_metadata ⟨2, [[5]]⟩
    { parts := [[6]], metadata := [("k", "v")] }
    (by decide) (by decide) (by decide) (by decide)

/-! ## Claim C5 -/

/-- Claim C5: the detector returns true exactly when the byte string
contains at least one well-formed function reference of the spec's
grammar; every other dollar or brace sequence is literal and does not
count, and a reference with an empty argument is not well-formed. -/
theorem containsFunctionVariables_iff (s : List Char) :
    ContainsFunctionVariables s = true ↔ HasFunctionRef s := by
  induction s with
  | nil =>
      simp only [ContainsFunctionVariables]
      constructor
      · intro h; cases h
      · rintro ⟨pre, r, post, heq, hwf⟩
        have := wellFormedRef_ne_nil hwf
        rcases List.append_eq_nil.mp (List.append_eq_nil.mp heq.symm).1 with ⟨-, h2⟩
        exact absurd h2 this
  | cons c cs ih =>
      simp only [ContainsFunctionVariables, Bool.or_eq_true, ih, matchRefAt_iff]
      constructor
      · rintro (⟨r, rest, heq, hwf⟩ | ⟨pre, r, post, heq, hwf⟩)
        · exact ⟨[], r, rest, by simpa using heq, hwf⟩
        · exact ⟨c :: pre, r, post, by simp [heq], hwf⟩
      · rintro ⟨pre, r, post, heq, hwf⟩
        cases pre with
        | nil => exact Or.inl ⟨r, post, by simpa using heq, hwf⟩
        | cons p pre' =>
            right
            refine ⟨pre', r, post, ?_, hwf⟩
            have : c = p ∧ cs = pre' ++ r ++ post := by
              simpa using heq
            exact this.2

/-- The eleven expectations of `TestFunctionVarDetection` (the staged test
of the detector), all met by the model. -/
theorem functionVarDetection_test_vectors :
    ContainsFunctionVariables ("foo $\x7b!foo_bar\x7d baz".data) = true ∧
    ContainsFunctionVariables ("foo $\x7b!foo_bar\x7d baz $\x7b!foo_baz\x7d".data) = true ∧
    ContainsFunctionVariables ("foo $!foo\x7d baz $!but_not_this\x7d".data) = false ∧
    ContainsFunctionVariables ("foo $\x7b!baz $\x7b!or_this".data) = false ∧
    ContainsFunctionVariables ("foo $\x7bbaz\x7d $\x7bor_this\x7d".data) = false ∧
    ContainsFunctionVariables ("nothing $ here boss \x7b!\x7d".data) = false ∧
    ContainsFunctionVariables ("foo $\x7b!foo_bar:arg1\x7d baz".data) = true ∧
    ContainsFunctionVariables ("foo $\x7b!foo_bar:\x7d baz".data) = false ∧
    ContainsFunctionVariables
      ("foo $\x7b!foo_bar:arg1\x7d baz $\x7b!foo_baz:arg2\x7d".data) = true ∧
    ContainsFunctionVariables ("foo $!foo:arg2\x7d baz $!but_not_this:\x7d".data) = false ∧
    ContainsFunctionVariables ("nothing $ here boss \x7b!:argnope\x7d".data) = false := by
  refine ⟨by decide, by decide, by decide, by decide, by decide, by decide,
    by decide, by decide, by decide, by decide, by decide⟩

/-! ## Claim C6 -/

/-- Claim C6: interpolating the `metadata` function with a key substitutes
the map's value for that key and the empty string when the key is absent;
with no argument it substitutes the JSON object of the whole map with keys
sorted lexicographically, so the map with foo bound to bar and baz bound
to qux yields exactly the same literal object in either insertion order. -/
theorem metadataFunction_spec :
    (∀ (m : Metadata) (key : String),
        (m.find? (fun kv => kv.1 == key) = none →
          MetadataFunction m (some key) = "") ∧
        ∀ kv, m.find? (fun kv0 => kv0.1 == key) = some kv →
          MetadataFunction m (some key) = kv.2) ∧
    MetadataFunction
        (Message.SetMetadata (Message.SetMetadata [] "foo" "bar") "baz" "qux") none
      = "\x7b\"baz\":\"qux\",\"foo\":\"bar\"\x7d" ∧
    MetadataFunction
        (Message.SetMetadata (Message.SetMetadata [] "baz" "qux") "foo" "bar") none
      = "\x7b\"baz\":\"qux\",\"foo\":\"bar\"\x7d" := by
  refine ⟨fun m key => ⟨fun h => ?_, fun kv h => ?_⟩, by decide, by decide⟩
  · simp [MetadataFunction, Message.GetMetadata, h]
  · simp [MetadataFunction, Message.GetMetadata, h]

/-- The lookups of `TestMetadataFunction` (the staged test): the present
key expands to its value, the absent key to the empty string. -/
theorem metadataFunction_test_vectors :
    MetadataFunction
        (Message.SetMetadata (Message.SetMetadata [] "foo" "bar") "baz" "qux")
        (some "foo") = "bar" ∧
    MetadataFunction
        (Message.SetMetadata (Message.SetMetadata [] "foo" "bar") "baz" "qux")
        (some "bar") = "" := by
  refine ⟨by decide, by decide⟩

/-! ## Claim C7 -/

/-- Claim C7 as frozen is false: `NewCombine` with the out-of-range field
`parts = 0` (which is `< 1`) still creates the component and surfaces no
error. -/
theorem newCombine_accepts_zero_parts :
    (0 : Int) < 1 ∧ NewCombine { Parts := 0 } = Except.ok { n := 0, parts := [] } :=
  ⟨by decide, rfl⟩

/-- Claim C7 (amended): `NewCombine` performs no validation of the `parts`
field — for every configuration, including `parts < 1`, it returns the
component built from the field, and never a config-invalid error. -/
theorem newCombine_never_errors (conf : CombineConfig) :
    ∃ c : Combine, NewCombine conf = Except.ok c ∧
      c.n = conf.Parts ∧ c.parts = [] :=
  ⟨{ n := conf.Parts, parts := [] }, rfl, rfl, rfl⟩

/-! ## Claim C8 -/

/-- Claim C8: with zero pipeline constructors, `WrapWithPipelines` returns
the very same input value unchanged and no error. -/
theorem wrapWithPipelines_zero_identity {α π : Type} (i : WrappedInput α π) :
    WrapWithPipelines i [] = Except.ok i :=
  rfl

/-! ## Claim C9 -/

/-- Claim C9: on a fresh Nanomsg output the first `Consume` succeeds (nil
error) and assigns the upstream; any later `Consume` while an upstream is
assigned returns the already-started error and leaves the assigned upstream
unchanged. -/
theorem nanomsg_consume_contract (σ : Type) (ts ts' u : σ) (s : Nanomsg σ)
    (h : s.transactions = some u) :
    (Nanomsg.New σ).Consume ts = ({ transactions := some ts }, none) ∧
    s.Consume ts' = (s, some OutputErr.alreadyStarted) := by
  constructor
  · simp [Nanomsg.New, Nanomsg.Consume]
  · simp [Nanomsg.Consume, h]

/-- Claim C9, witnessed with nat-coded channels. -/
theorem nanomsg_consume_contract_witness :
    (Nanomsg.New Nat).Consume 7 = ({ transactions := some 7 }, none) ∧
    (Nanomsg.mk (some 7)).Consume 8 =
      (Nanomsg.mk (some 7), some OutputErr.alreadyStarted) :=
  nanomsg_consume_contract Nat 7 8 7 (Nanomsg.mk (some 7)) rfl

/-! ## Claim C10 -/

/-- Claim C10: on the oversize pass-through case the processor state — in
particular the buffer of pending parts — is left completely unchanged. -/
theorem combine_oversize_buffer_frame (c : Combine) (msg : Message)
    (h : (msg.Len : Int) > c.n) :
    (c.ProcessMessage msg).1 = c := by
  unfold Combine.ProcessMessage
  rw [if_pos h]

/-- Claim C10, witnessed with a non-empty pending buffer. -/
theorem combine_oversize_buffer_frame_witness :
    (Combine.ProcessMessage ⟨2, [[7]]⟩
        { parts := [[1], [2], [3]], metadata := [] }).1 = ⟨2, [[7]]⟩ :=
  combine_oversize_buffer_frame ⟨2, [[7]]⟩ _ (by decide)
